import Mathlib

/-!
Shallow embedding of the blackjack engine of `app.py` (and the standalone
variant `blackjack/game.py`): cards, deck, hand valuation with the soft-ace
downgrade loop, the `BlackjackGame` state machine (`start`, `player_hit`,
`player_stand`), the per-user session store `get_game_for_user`, and the
outcome-logging behaviour of the `/hit` and `/stand` route handlers.

Python's `random.shuffle` is modelled by quantifying over an arbitrary
permutation of the canonical 52-card list; `list.pop()` (which removes the
last element, and raises on an empty list) is modelled by an `Option`-valued
`dealCard` returning the last element and the remaining prefix.
-/

/-- The four suits, `SUITS` in `app.py`. -/
inductive Suit where
  | hearts | diamonds | clubs | spades
deriving DecidableEq, Repr

/-- The thirteen ranks, `RANKS` in `app.py`. -/
inductive Rank where
  | two | three | four | five | six | seven | eight | nine | ten
  | jack | queen | king | ace
deriving DecidableEq, Repr

/-- The rank-to-base-value table `VALUES` in `app.py` (A counts 11 here;
the downgrade happens in `hand_value`). -/
def VALUES : Rank → Nat
  | .two => 2
  | .three => 3
  | .four => 4
  | .five => 5
  | .six => 6
  | .seven => 7
  | .eight => 8
  | .nine => 9
  | .ten => 10
  | .jack => 10
  | .queen => 10
  | .king => 10
  | .ace => 11

/-- The `Card` class of `app.py`: a (rank, suit) pair. -/
structure Card where
  rank : Rank
  suit : Suit
deriving DecidableEq, Repr

/-- The method `Card.value` of `app.py`. -/
def Card.value (c : Card) : Nat := VALUES c.rank

def SUITS : List Suit := [.hearts, .diamonds, .clubs, .spades]

def RANKS : List Rank :=
  [.two, .three, .four, .five, .six, .seven, .eight, .nine, .ten,
   .jack, .queen, .king, .ace]

/-- The 52-card list built by `Deck.__init__` before `random.shuffle`:
`[Card(rank, suit) for suit in SUITS for rank in RANKS]` (suits outermost). -/
def freshDeckCards : List Card :=
  SUITS.flatMap fun s => RANKS.map fun r => { rank := r, suit := s }

/-- The method `Deck.deal` of `app.py`: `self.cards.pop()` removes and returns the LAST
element of the list (the top of the deck); on an empty deck Python raises,
modelled as `none`. -/
def dealCard (d : List Card) : Option (Card × List Card) :=
  match d.getLast? with
  | none => none
  | some c => some (c, d.dropLast)

/-- First phase of `hand_value`: `sum(card.value() for card in cards)`. -/
def baseSum (cards : List Card) : Nat := (cards.map Card.value).sum

/-- Second component of `hand_value`:
`sum(1 for card in cards if card.rank == "A")`. -/
def countAces (cards : List Card) : Nat :=
  cards.countP fun c => c.rank == Rank.ace

/-- The `while total > 21 and aces > 0: total -= 10; aces -= 1` loop of
`hand_value`, recursing on the remaining downgradable-ace count. -/
def adjustAces : Nat → Nat → Nat
  | total, 0 => total
  | total, a + 1 => if 21 < total then adjustAces (total - 10) a else total

/-- The function `hand_value(cards)` of `app.py`. -/
def hand_value (cards : List Card) : Nat :=
  adjustAces (baseSum cards) (countAces cards)

/-- One step of the accumulation loop of `calculate_hand_value` in
`blackjack/game.py`: faces add 10, an ace adds 11 and bumps the ace count,
numeric ranks add their value. -/
def cvStep (acc : Nat × Nat) (c : Card) : Nat × Nat :=
  if c.rank = Rank.jack ∨ c.rank = Rank.queen ∨ c.rank = Rank.king then
    (acc.1 + 10, acc.2)
  else if c.rank = Rank.ace then
    (acc.1 + 11, acc.2 + 1)
  else
    (acc.1 + VALUES c.rank, acc.2)

/-- The function `calculate_hand_value(hand)` of `blackjack/game.py`: one forward pass
accumulating `(value, aces)`, then the same ace-adjustment loop. -/
def calculate_hand_value (hand : List Card) : Nat :=
  adjustAces (hand.foldl cvStep (0, 0)).1 (hand.foldl cvStep (0, 0)).2

/-! ### The `BlackjackGame` state machine -/

/-- The mutable state of a `BlackjackGame` instance in `app.py`. -/
structure Game where
  deck : List Card
  player_cards : List Card
  dealer_cards : List Card
  finished : Bool
  message : String
deriving DecidableEq, Repr

/-- The constructor `BlackjackGame.__init__`: a freshly shuffled deck (passed in explicitly,
standing for `Deck()`), empty hands, not finished, empty message. -/
def initGame (d : List Card) : Game :=
  { deck := d, player_cards := [], dealer_cards := [], finished := false,
    message := "" }

/-- The method `BlackjackGame.start`: replace the deck by a fresh shuffled one (the
explicit `fresh` argument), deal two cards to the player and then two to the
dealer, clear `finished`, set the greeting message. The prior state `g` is
ignored because `start` overwrites every field. `none` only when the fresh
deck has fewer than four cards. -/
def Game.start (fresh : List Card) (_g : Game) : Option Game :=
  match dealCard fresh with
  | none => none
  | some (c1, d1) =>
    match dealCard d1 with
    | none => none
    | some (c2, d2) =>
      match dealCard d2 with
      | none => none
      | some (c3, d3) =>
        match dealCard d3 with
        | none => none
        | some (c4, d4) =>
          some { deck := d4, player_cards := [c1, c2],
                 dealer_cards := [c3, c4], finished := false,
                 message := "Game started. Hit or stand?" }

/-- The method `BlackjackGame.player_hit`: no-op when finished; otherwise deal one card
to the player, and finish with the bust message when the new total
exceeds 21. -/
def player_hit (g : Game) : Option Game :=
  if g.finished then some g
  else
    match dealCard g.deck with
    | none => none
    | some (c, d) =>
      let pc := g.player_cards ++ [c]
      if 21 < hand_value pc then
        some { deck := d, player_cards := pc, dealer_cards := g.dealer_cards,
               finished := true, message := "You busted! Dealer wins." }
      else
        some { deck := d, player_cards := pc, dealer_cards := g.dealer_cards,
               finished := g.finished, message := g.message }

/-- The dealer-draw loop of `player_stand`:
`while hand_value(self.dealer_cards) < 17: self.dealer_cards.append(self.deck.deal())`,
written with a fuel argument for structural recursion. It is invoked with
fuel = deck size, and whenever `deck.length ≤ fuel` it coincides with the
source loop: the fuel can only run out together with the deck, and an empty
deck makes the loop's `deal()` fail (`none`) exactly as in the fuel-0 case. -/
def drawLoopF : Nat → List Card → List Card → Option (List Card × List Card)
  | 0, deck, dealer =>
    if hand_value dealer < 17 then none else some (deck, dealer)
  | fuel + 1, deck, dealer =>
    if hand_value dealer < 17 then
      match dealCard deck with
      | none => none
      | some (c, d) => drawLoopF fuel d (dealer ++ [c])
    else some (deck, dealer)

/-- The method `BlackjackGame.player_stand`: no-op when finished; otherwise run the
dealer-draw loop, mark the game finished, and set the outcome message by
comparing totals exactly as the source does. -/
def player_stand (g : Game) : Option Game :=
  if g.finished then some g
  else
    match drawLoopF g.deck.length g.deck g.dealer_cards with
    | none => none
    | some (deck2, dealer2) =>
      some { deck := deck2, player_cards := g.player_cards,
             dealer_cards := dealer2, finished := true,
             message :=
               if 21 < hand_value dealer2 ∨
                   hand_value dealer2 < hand_value g.player_cards then
                 "You win!"
               else if hand_value g.player_cards < hand_value dealer2 then
                 "Dealer wins."
               else "Push (tie)." }

/-! ### Session store (`GAMES` dict and `get_game_for_user`) -/

/-- The module-level `GAMES` dict, username to game, as an association list
(first match wins, mirroring dict lookup; keys are unique because entries
are only added after a failed lookup). -/
def Store := List (String × Game)

/-- The dict lookup `GAMES.get(username)`. -/
def storeLookup (s : Store) (u : String) : Option Game :=
  match s with
  | [] => none
  | (k, g) :: rest => if k = u then some g else storeLookup rest u

/-- The function `get_game_for_user(username)`: return the stored game if present;
otherwise build `BlackjackGame()` (deck `fresh1`), call `start()` on it
(fresh deck `fresh2`), store it under the username and return it. Returns
the (possibly extended) store together with the game; `none` only when
`start` runs out of cards. -/
def get_game_for_user (fresh1 fresh2 : List Card) (s : Store) (u : String) :
    Option (Store × Game) :=
  match storeLookup s u with
  | some g => some (s, g)
  | none =>
    match Game.start fresh2 (initGame fresh1) with
    | none => none
    | some g => some ((u, g) :: s, g)

/-! ### The `/hit` and `/stand` route handlers' outcome logging -/

/-- The values of the `result` column of `hand_history`. -/
inductive HandResult where
  | win | loss | push
deriving DecidableEq, Repr

/-- Python's `needle in haystack` substring test. -/
def containsStr (needle hay : String) : Bool :=
  decide (List.IsInfix needle.toList hay.toList)

/-- The result classification of the `/stand` handler:
`"You win" in message` gives a win, else `"Dealer wins" in message or
"busted" in message` gives a loss, else a push. -/
def resultOfMessage (m : String) : HandResult :=
  if containsStr "You win" m then .win
  else if containsStr "Dealer wins" m || containsStr "busted" m then .loss
  else .push

/-- The `/stand` route handler (its game-state and hand-history effects):
call `player_stand`, then append one outcome record whenever the game is
finished afterwards — with no check that this call finished it. -/
def standRoute (g : Game) : Option (Game × List HandResult) :=
  match player_stand g with
  | none => none
  | some g2 =>
    some (g2, if g2.finished then [resultOfMessage g2.message] else [])

/-- The `/hit` route handler (its game-state and hand-history effects):
call `player_hit`, then append one loss record whenever the game is
finished afterwards with a bust message — again with no check that this
call finished it. -/
def hitRoute (g : Game) : Option (Game × List HandResult) :=
  match player_hit g with
  | none => none
  | some g2 =>
    some (g2, if g2.finished && containsStr "busted" g2.message then
                [HandResult.loss]
              else [])

/-! ### Reachable session states -/

/-- Game states reachable in one hand cycle: a `start` from some fresh
52-card deck, followed by any sequence of `player_hit` and `player_stand`
calls. -/
inductive Reach : Game → Prop where
  | start (fresh : List Card) (g g2 : Game) :
      fresh.Perm freshDeckCards → Game.start fresh g = some g2 → Reach g2
  | hit (g g2 : Game) : Reach g → player_hit g = some g2 → Reach g2
  | stand (g g2 : Game) : Reach g → player_stand g = some g2 → Reach g2

/-- The inductive invariant of one hand cycle: cards are conserved between
deck and hands, hands stay small, and an in-progress session has a
non-busted player hand and an untouched two-card dealer hand. -/
def GameInv (g : Game) : Prop :=
  g.deck.length + g.player_cards.length + g.dealer_cards.length = 52 ∧
    g.player_cards.length ≤ 22 ∧
    g.dealer_cards.length ≤ 17 ∧
    (g.finished = false →
      hand_value g.player_cards ≤ 21 ∧ g.dealer_cards.length = 2)

/-! ### Concrete states for witnesses and counterexamples -/

/-- An in-progress game about to stand: both sides hold 19. -/
def exStandGame : Game :=
  { deck := [], player_cards := [⟨.ten, .hearts⟩, ⟨.nine, .hearts⟩],
    dealer_cards := [⟨.ten, .spades⟩, ⟨.nine, .spades⟩],
    finished := false, message := "Game started. Hit or stand?" }

/-- The state `exStandGame` reaches after `player_stand`: a push. -/
def exStandGame2 : Game :=
  { deck := [], player_cards := [⟨.ten, .hearts⟩, ⟨.nine, .hearts⟩],
    dealer_cards := [⟨.ten, .spades⟩, ⟨.nine, .spades⟩],
    finished := true, message := "Push (tie)." }

/-- An in-progress game whose next hit card (5♣) busts the player. -/
def exHitGame : Game :=
  { deck := [⟨.five, .clubs⟩],
    player_cards := [⟨.ten, .hearts⟩, ⟨.nine, .hearts⟩],
    dealer_cards := [⟨.ten, .spades⟩, ⟨.nine, .spades⟩],
    finished := false, message := "Game started. Hit or stand?" }

/-- The state `exHitGame` reaches after `player_hit`: a bust. -/
def exHitGame2 : Game :=
  { deck := [],
    player_cards := [⟨.ten, .hearts⟩, ⟨.nine, .hearts⟩, ⟨.five, .clubs⟩],
    dealer_cards := [⟨.ten, .spades⟩, ⟨.nine, .spades⟩],
    finished := true, message := "You busted! Dealer wins." }

/-- A finished game (dealer won on a stand). -/
def exFinishedGame : Game :=
  { deck := [⟨.two, .clubs⟩],
    player_cards := [⟨.ten, .hearts⟩, ⟨.nine, .hearts⟩],
    dealer_cards := [⟨.ten, .spades⟩, ⟨.ten, .clubs⟩],
    finished := true, message := "Dealer wins." }

/-- A finished game that ended with a player bust on a hit. -/
def exBustedGame : Game :=
  { deck := [⟨.two, .clubs⟩],
    player_cards := [⟨.ten, .hearts⟩, ⟨.nine, .hearts⟩, ⟨.five, .clubs⟩],
    dealer_cards := [⟨.ten, .spades⟩, ⟨.nine, .spades⟩],
    finished := true, message := "You busted! Dealer wins." }

/-- The game obtained by `start` from the unshuffled canonical deck: the
last four cards (A♠, K♠, Q♠, J♠) go to the player and dealer in turn. -/
def exStartedGame : Game :=
  { deck := freshDeckCards.take 48,
    player_cards := [⟨.ace, .spades⟩, ⟨.king, .spades⟩],
    dealer_cards := [⟨.queen, .spades⟩, ⟨.jack, .spades⟩],
    finished := false, message := "Game started. Hit or stand?" }

/-! ### Arithmetic facts about the valuation -/

theorem VALUES_ge_two (r : Rank) : 2 ≤ VALUES r := by
  cases r <;> decide

theorem VALUES_le_eleven (r : Rank) : VALUES r ≤ 11 := by
  cases r <;> decide

theorem VALUES_le_ten_of_ne_ace (r : Rank) (h : r ≠ Rank.ace) : VALUES r ≤ 10 := by
  cases r <;> first | decide | exact absurd rfl h

/-- Full characterisation of the ace-adjustment loop: it subtracts 10 exactly
`k` times, where `k` never exceeds the ace count, the loop only continues
while the running total exceeds 21, and a final total above 21 means every
ace was downgraded. -/
theorem adjustAces_spec (a t : Nat) :
    ∃ k, k ≤ a ∧ adjustAces t a = t - 10 * k ∧
      (21 < adjustAces t a → k = a) ∧
      (∀ j, j < k → 21 < t - 10 * j) := by
  induction a generalizing t with
  | zero =>
    exact ⟨0, Nat.le_refl 0, by simp [adjustAces], fun _ => rfl, by omega⟩
  | succ n ih =>
    by_cases h : 21 < t
    · obtain ⟨k, hk, heq, hgt, hmin⟩ := ih (t - 10)
      refine ⟨k + 1, by omega, ?_, ?_, ?_⟩
      · rw [adjustAces, if_pos h, heq]; omega
      · intro hv
        rw [adjustAces, if_pos h] at hv
        exact congrArg Nat.succ (hgt hv)
      · intro j hj
        cases j with
        | zero => simpa using h
        | succ m =>
          have := hmin m (by omega)
          omega
    · refine ⟨0, by omega, ?_, ?_, by omega⟩
      · rw [adjustAces, if_neg h]; omega
      · intro hv
        rw [adjustAces, if_neg h] at hv
        omega

/-- Bounds on the base sum: every card is worth between 2 and 11, an ace
exactly 11 and a non-ace at most 10. -/
theorem baseSum_bounds (h : List Card) :
    2 * h.length + 9 * countAces h ≤ baseSum h ∧
      baseSum h ≤ 10 * h.length + countAces h ∧
      countAces h ≤ h.length := by
  induction h with
  | nil => simp [baseSum, countAces]
  | cons c t ih =>
    have h2 := VALUES_ge_two c.rank
    have h11 := VALUES_le_eleven c.rank
    by_cases hc : c.rank = Rank.ace
    · have hval : c.value = 11 := by simp [Card.value, hc, VALUES]
      have hcnt : countAces (c :: t) = countAces t + 1 := by
        simp [countAces, List.countP_cons, hc]
      have hbs : baseSum (c :: t) = c.value + baseSum t := by
        simp [baseSum]
      rw [hbs, hval, hcnt]
      simp only [List.length_cons]
      omega
    · have h10 := VALUES_le_ten_of_ne_ace c.rank hc
      have hcnt : countAces (c :: t) = countAces t := by
        simp [countAces, List.countP_cons, hc]
      have hbs : baseSum (c :: t) = c.value + baseSum t := by
        simp [baseSum]
      have : c.value = VALUES c.rank := rfl
      rw [hbs, hcnt]
      simp only [List.length_cons]
      omega

/-- Every card contributes at least 1 to the adjusted total. -/
theorem hand_value_ge_length (h : List Card) : h.length ≤ hand_value h := by
  obtain ⟨k, hk, heq, _, _⟩ := adjustAces_spec (countAces h) (baseSum h)
  have hb := baseSum_bounds h
  rw [hand_value] at *
  omega

/-- An adjusted total above 21 means every ace was downgraded, so each card
then contributes at most 10. -/
theorem hand_value_gt21 (h : List Card) (hgt : 21 < hand_value h) :
    hand_value h = baseSum h - 10 * countAces h ∧ hand_value h ≤ 10 * h.length := by
  obtain ⟨k, hk, heq, hall, _⟩ := adjustAces_spec (countAces h) (baseSum h)
  have hb := baseSum_bounds h
  rw [hand_value] at *
  have := hall hgt
  omega

/-- A hand of at most two cards never overshoots 21 after adjustment. -/
theorem hand_value_le21_of_two (h : List Card) (hl : h.length ≤ 2) :
    hand_value h ≤ 21 := by
  by_contra hgt
  push_neg at hgt
  have := (hand_value_gt21 h hgt).2
  omega

/-- Folding `cvStep` computes exactly the base sum and the ace count. -/
theorem foldl_cvStep (h : List Card) (v a : Nat) :
    h.foldl cvStep (v, a) = (v + baseSum h, a + countAces h) := by
  induction h generalizing v a with
  | nil => simp [baseSum, countAces]
  | cons c t ih =>
    have hbs : baseSum (c :: t) = VALUES c.rank + baseSum t := by
      simp [baseSum, Card.value]
    by_cases hf : c.rank = Rank.jack ∨ c.rank = Rank.queen ∨ c.rank = Rank.king
    · have hval : VALUES c.rank = 10 := by
        rcases hf with hf | hf | hf <;> simp [hf, VALUES]
      have hna : c.rank ≠ Rank.ace := by
        rcases hf with hf | hf | hf <;> simp [hf]
      have hcnt : countAces (c :: t) = countAces t := by
        simp [countAces, List.countP_cons, hna]
      have hstep : cvStep (v, a) c = (v + 10, a) := by simp [cvStep, hf]
      rw [List.foldl_cons, hstep, ih, hbs, hcnt, hval]
      simp only [Prod.mk.injEq]
      constructor <;> first | omega | trivial
    · by_cases ha : c.rank = Rank.ace
      · have hval : VALUES c.rank = 11 := by simp [ha, VALUES]
        have hcnt : countAces (c :: t) = countAces t + 1 := by
          simp [countAces, List.countP_cons, ha]
        have hstep : cvStep (v, a) c = (v + 11, a + 1) := by simp [cvStep, hf, ha]
        rw [List.foldl_cons, hstep, ih, hbs, hcnt, hval]
        simp only [Prod.mk.injEq]
        constructor <;> omega
      · have hcnt : countAces (c :: t) = countAces t := by
          simp [countAces, List.countP_cons, ha]
        have hstep : cvStep (v, a) c = (v + VALUES c.rank, a) := by
          simp [cvStep, hf, ha]
        rw [List.foldl_cons, hstep, ih, hbs, hcnt]
        simp only [Prod.mk.injEq]
        constructor <;> first | omega | trivial

/-- The two valuation functions of the repository agree. -/
theorem calculate_hand_value_eq (h : List Card) :
    calculate_hand_value h = hand_value h := by
  rw [calculate_hand_value, foldl_cvStep]
  simp [hand_value]

/-! ### Deck lemmas -/

theorem dealCard_some {d : List Card} {c : Card} {rest : List Card}
    (h : dealCard d = some (c, rest)) :
    rest.length + 1 = d.length ∧ rest = d.dropLast ∧ d = rest ++ [c] := by
  rw [dealCard] at h
  cases hd : d.getLast? with
  | none => rw [hd] at h; cases h
  | some c0 =>
    rw [hd] at h
    obtain ⟨hc, hrest⟩ := Prod.mk.injEq .. ▸ Option.some.injEq .. ▸ h
    have hne : d ≠ [] := by
      intro he
      rw [he] at hd
      cases hd
    have hget : c0 = d.getLast hne := by
      have := List.getLast?_eq_getLast d hne
      rw [hd] at this
      exact Option.some.injEq .. ▸ this
    subst hrest hc hget
    refine ⟨?_, rfl, (List.dropLast_append_getLast hne).symm⟩
    have := List.length_dropLast d
    cases d with
    | nil => exact absurd rfl hne
    | cons a l => simp [List.length_dropLast] at this ⊢

theorem dealCard_isSome {d : List Card} (h : d ≠ []) :
    ∃ c rest, dealCard d = some (c, rest) := by
  rw [dealCard]
  cases hd : d.getLast? with
  | none => exact absurd (List.getLast?_eq_none_iff.mp hd) h
  | some c0 => exact ⟨c0, d.dropLast, rfl⟩

/-! ### Dealer-draw loop lemmas -/

/-- When the loop condition is already false (dealer total at least 17),
the dealer draws nothing. -/
theorem drawLoopF_at17 (n : Nat) (deck dealer : List Card)
    (h : ¬ hand_value dealer < 17) :
    drawLoopF n deck dealer = some (deck, dealer) := by
  cases n <;> simp [drawLoopF, h]

/-- Postconditions of a successful dealer-draw loop: the dealer ends at 17
or more, cards are conserved between deck and dealer hand, and the dealer
hand never grows beyond 17 cards. -/
theorem drawLoopF_some (n : Nat) (deck dealer deck2 dealer2 : List Card)
    (hn : deck.length ≤ n)
    (h : drawLoopF n deck dealer = some (deck2, dealer2)) :
    17 ≤ hand_value dealer2 ∧
      deck2.length + dealer2.length = deck.length + dealer.length ∧
      dealer2.length ≤ max dealer.length 17 := by
  induction n generalizing deck dealer with
  | zero =>
    by_cases hv : hand_value dealer < 17
    · rw [drawLoopF, if_pos hv] at h
      cases h
    · rw [drawLoopF, if_neg hv] at h
      obtain ⟨h1, h2⟩ := Prod.mk.injEq .. ▸ Option.some.injEq .. ▸ h
      subst h1 h2
      exact ⟨by omega, rfl, Nat.le_max_left ..⟩
  | succ n ih =>
    by_cases hv : hand_value dealer < 17
    · rw [drawLoopF, if_pos hv] at h
      cases hd : dealCard deck with
      | none => rw [hd] at h; cases h
      | some p =>
        obtain ⟨c, d⟩ := p
        rw [hd] at h
        obtain ⟨hlen, -, -⟩ := dealCard_some hd
        obtain ⟨h17, hcons, hmax⟩ := ih d (dealer ++ [c]) (by omega) h
        have hgl := hand_value_ge_length dealer
        simp only [List.length_append, List.length_singleton] at hcons hmax
        exact ⟨h17, by omega, by omega⟩
    · rw [drawLoopF, if_neg hv] at h
      obtain ⟨h1, h2⟩ := Prod.mk.injEq .. ▸ Option.some.injEq .. ▸ h
      subst h1 h2
      exact ⟨by omega, rfl, Nat.le_max_left ..⟩

/-- The dealer-draw loop succeeds whenever deck plus dealer hand hold at
least 17 cards: the dealer stops at 17, and each card is worth at least
one point. -/
theorem drawLoopF_isSome (n : Nat) (deck dealer : List Card)
    (hn : deck.length ≤ n) (hbig : 17 ≤ deck.length + dealer.length) :
    ∃ r, drawLoopF n deck dealer = some r := by
  induction n generalizing deck dealer with
  | zero =>
    have hd0 : deck.length = 0 := by omega
    have := hand_value_ge_length dealer
    have hv : ¬ hand_value dealer < 17 := by omega
    exact ⟨(deck, dealer), by rw [drawLoopF, if_neg hv]⟩
  | succ n ih =>
    by_cases hv : hand_value dealer < 17
    · have hgl := hand_value_ge_length dealer
      have hne : deck ≠ [] := by
        intro he
        rw [he] at hbig
        simp at hbig
        omega
      obtain ⟨c, rest, hd⟩ := dealCard_isSome hne
      obtain ⟨hlen, -, -⟩ := dealCard_some hd
      obtain ⟨r, hr⟩ := ih rest (dealer ++ [c]) (by omega) (by simp; omega)
      exact ⟨r, by rw [drawLoopF, if_pos hv, hd]; exact hr⟩
    · exact ⟨(deck, dealer), by rw [drawLoopF, if_neg hv]⟩

/-! ### Operation characterisation lemmas -/

theorem player_hit_finished (g : Game) (hf : g.finished = true) :
    player_hit g = some g := by
  rw [player_hit, hf]
  simp

theorem player_stand_finished (g : Game) (hf : g.finished = true) :
    player_stand g = some g := by
  rw [player_stand, hf]
  simp

theorem player_hit_charac (g g2 : Game) (hf : g.finished = false)
    (h : player_hit g = some g2) :
    ∃ c d, dealCard g.deck = some (c, d) ∧
      g2 = if 21 < hand_value (g.player_cards ++ [c]) then
             { deck := d, player_cards := g.player_cards ++ [c],
               dealer_cards := g.dealer_cards, finished := true,
               message := "You busted! Dealer wins." }
           else
             { deck := d, player_cards := g.player_cards ++ [c],
               dealer_cards := g.dealer_cards, finished := g.finished,
               message := g.message } := by
  rw [player_hit, hf] at h
  simp only [Bool.false_eq_true, if_false] at h
  cases hd : dealCard g.deck with
  | none => rw [hd] at h; cases h
  | some p =>
    obtain ⟨c, d⟩ := p
    rw [hd] at h
    refine ⟨c, d, rfl, ?_⟩
    by_cases hb : 21 < hand_value (g.player_cards ++ [c])
    · rw [if_pos hb]
      simp only [hb, if_true] at h
      exact (Option.some.injEq .. ▸ h).symm
    · rw [if_neg hb, hf]
      simp only [hb, if_false] at h
      exact (Option.some.injEq .. ▸ h).symm

theorem player_stand_charac (g g2 : Game) (hf : g.finished = false)
    (h : player_stand g = some g2) :
    ∃ deck2 dealer2,
      drawLoopF g.deck.length g.deck g.dealer_cards = some (deck2, dealer2) ∧
      g2 = { deck := deck2, player_cards := g.player_cards,
             dealer_cards := dealer2, finished := true,
             message :=
               if 21 < hand_value dealer2 ∨
                   hand_value dealer2 < hand_value g.player_cards then
                 "You win!"
               else if hand_value g.player_cards < hand_value dealer2 then
                 "Dealer wins."
               else "Push (tie)." } := by
  rw [player_stand, hf] at h
  simp only [Bool.false_eq_true, if_false] at h
  cases hd : drawLoopF g.deck.length g.deck g.dealer_cards with
  | none => rw [hd] at h; cases h
  | some p =>
    obtain ⟨deck2, dealer2⟩ := p
    rw [hd] at h
    exact ⟨deck2, dealer2, rfl, (Option.some.injEq .. ▸ h).symm⟩

/-- Standing always leaves the session finished. -/
theorem player_stand_finishes (g g2 : Game) (h : player_stand g = some g2) :
    g2.finished = true := by
  cases hf : g.finished with
  | true =>
    rw [player_stand_finished g hf] at h
    obtain rfl := Option.some.injEq .. ▸ h
    exact hf
  | false =>
    obtain ⟨deck2, dealer2, -, rfl⟩ := player_stand_charac g g2 hf h
    rfl

theorem start_chain (fresh : List Card) (g g2 : Game)
    (h : Game.start fresh g = some g2) :
    ∃ c1 d1 c2 d2 c3 d3 c4 d4,
      dealCard fresh = some (c1, d1) ∧ dealCard d1 = some (c2, d2) ∧
      dealCard d2 = some (c3, d3) ∧ dealCard d3 = some (c4, d4) ∧
      g2 = { deck := d4, player_cards := [c1, c2], dealer_cards := [c3, c4],
             finished := false, message := "Game started. Hit or stand?" } := by
  rw [Game.start] at h
  split at h
  · cases h
  · next c1 d1 h1 =>
    split at h
    · cases h
    · next c2 d2 h2 =>
      split at h
      · cases h
      · next c3 d3 h3 =>
        split at h
        · cases h
        · next c4 d4 hd4 =>
          exact ⟨c1, d1, c2, d2, c3, d3, c4, d4, h1, h2, h3, hd4,
                 (Option.some.injEq .. ▸ h).symm⟩

theorem start_isSome (fresh : List Card) (g : Game) (h4 : 4 ≤ fresh.length) :
    ∃ g2, Game.start fresh g = some g2 := by
  have hne1 : fresh ≠ [] := by
    intro he; rw [he] at h4; simp at h4
  obtain ⟨c1, d1, h1⟩ := dealCard_isSome hne1
  obtain ⟨hl1, -, -⟩ := dealCard_some h1
  have hne2 : d1 ≠ [] := by
    intro he; rw [he] at hl1; simp at hl1; omega
  obtain ⟨c2, d2, h2⟩ := dealCard_isSome hne2
  obtain ⟨hl2, -, -⟩ := dealCard_some h2
  have hne3 : d2 ≠ [] := by
    intro he; rw [he] at hl2; simp at hl2; omega
  obtain ⟨c3, d3, h3⟩ := dealCard_isSome hne3
  obtain ⟨hl3, -, -⟩ := dealCard_some h3
  have hne4 : d3 ≠ [] := by
    intro he; rw [he] at hl3; simp at hl3; omega
  obtain ⟨c4, d4, hd4⟩ := dealCard_isSome hne4
  rw [Game.start]
  simp only [h1, h2, h3, hd4]
  exact ⟨_, rfl⟩

/-- The canonical deck holds 52 cards. -/
theorem freshDeckCards_length : freshDeckCards.length = 52 := by decide

/-- Every reachable session state satisfies the hand-cycle invariant. -/
theorem reach_inv (g : Game) (hr : Reach g) : GameInv g := by
  induction hr with
  | start fresh g0 g2 hp hs =>
    obtain ⟨c1, d1, c2, d2, c3, d3, c4, d4, h1, h2, h3, h4, rfl⟩ :=
      start_chain fresh g0 g2 hs
    obtain ⟨hl1, -, -⟩ := dealCard_some h1
    obtain ⟨hl2, -, -⟩ := dealCard_some h2
    obtain ⟨hl3, -, -⟩ := dealCard_some h3
    obtain ⟨hl4, -, -⟩ := dealCard_some h4
    have hlen : fresh.length = 52 := hp.length_eq.trans freshDeckCards_length
    refine ⟨by simp; omega, by simp, by simp, fun _ => ⟨?_, by simp⟩⟩
    exact hand_value_le21_of_two _ (by simp)
  | hit g0 g2 hr0 hh ih =>
    cases hf : g0.finished with
    | true =>
      rw [player_hit_finished g0 hf] at hh
      obtain rfl := Option.some.injEq .. ▸ hh
      exact ih
    | false =>
      obtain ⟨hsum, hp22, hd17, hprog⟩ := ih
      obtain ⟨hpv, hdl2⟩ := hprog hf
      obtain ⟨c, d, hd, rfl⟩ := player_hit_charac g0 g2 hf hh
      obtain ⟨hlen, -, -⟩ := dealCard_some hd
      have hpl := hand_value_ge_length g0.player_cards
      by_cases hb : 21 < hand_value (g0.player_cards ++ [c])
      · rw [if_pos hb]
        refine ⟨by simp; omega, by simp; omega, by simpa using hd17, ?_⟩
        intro hcontra
        cases hcontra
      · rw [if_neg hb, hf]
        push_neg at hb
        exact ⟨by simp; omega, by simp; omega, by simpa using hd17,
               fun _ => ⟨by simpa using hb, by simpa using hdl2⟩⟩
  | stand g0 g2 hr0 hs ih =>
    cases hf : g0.finished with
    | true =>
      rw [player_stand_finished g0 hf] at hs
      obtain rfl := Option.some.injEq .. ▸ hs
      exact ih
    | false =>
      obtain ⟨hsum, hp22, hd17, hprog⟩ := ih
      obtain ⟨hpv, hdl2⟩ := hprog hf
      obtain ⟨deck2, dealer2, hdl, rfl⟩ := player_stand_charac g0 g2 hf hs
      obtain ⟨h17, hcons, hmax⟩ :=
        drawLoopF_some g0.deck.length g0.deck g0.dealer_cards deck2 dealer2
          (Nat.le_refl _) hdl
      refine ⟨by simp; omega, by simpa using hp22, by simp; omega, ?_⟩
      intro hcontra
      cases hcontra

/-! ### Claim theorems -/

/-- C1: for every hand, `hand_value` returns the sum of base values
(numeric rank for 2-10, 10 for faces, 11 for A), then subtracts 10 once per
downgradable ace, but only while the running total exceeds 21 (a final total
above 21 means every ace was downgraded, and each subtraction happened at a
total above 21); the standalone `calculate_hand_value` computes the same
function, and the spec's five examples hold. -/
theorem blackjack_hand_value_spec :
    (∀ h : List Card, ∃ k, k ≤ countAces h ∧
        hand_value h = baseSum h - 10 * k ∧
        (21 < hand_value h → k = countAces h) ∧
        (∀ j, j < k → 21 < baseSum h - 10 * j)) ∧
    (∀ h : List Card, calculate_hand_value h = hand_value h) ∧
    hand_value [⟨.ten, .hearts⟩, ⟨.nine, .spades⟩] = 19 ∧
    hand_value [⟨.ace, .hearts⟩, ⟨.nine, .spades⟩] = 20 ∧
    hand_value [⟨.ace, .hearts⟩, ⟨.nine, .spades⟩, ⟨.five, .clubs⟩] = 15 ∧
    hand_value [⟨.ace, .hearts⟩, ⟨.ace, .spades⟩, ⟨.nine, .clubs⟩] = 21 ∧
    hand_value [⟨.ace, .hearts⟩, ⟨.ace, .spades⟩, ⟨.ace, .clubs⟩,
                ⟨.nine, .diamonds⟩] = 12 :=
  ⟨fun h => adjustAces_spec (countAces h) (baseSum h),
   calculate_hand_value_eq,
   by decide, by decide, by decide, by decide, by decide⟩

/-- C2: standing on an in-progress session finishes it, drives the dealer
to 17 or more (drawing while below 17), leaves the player hand unchanged,
and resolves the outcome: dealer bust or dealer below player is a win,
player below dealer a loss, equality a push; a dealer already on exactly 17
with no aces draws no card. -/
theorem blackjack_stand_resolves (g g2 : Game)
    (hf : g.finished = false) (h : player_stand g = some g2) :
    g2.finished = true ∧
    17 ≤ hand_value g2.dealer_cards ∧
    g2.player_cards = g.player_cards ∧
    (21 < hand_value g2.dealer_cards ∨
        hand_value g2.dealer_cards < hand_value g2.player_cards →
      g2.message = "You win!") ∧
    (hand_value g2.dealer_cards ≤ 21 →
      hand_value g2.player_cards < hand_value g2.dealer_cards →
      g2.message = "Dealer wins.") ∧
    (hand_value g2.dealer_cards ≤ 21 →
      hand_value g2.player_cards = hand_value g2.dealer_cards →
      g2.message = "Push (tie).") ∧
    (hand_value g.dealer_cards = 17 → countAces g.dealer_cards = 0 →
      g2.dealer_cards = g.dealer_cards ∧ g2.deck = g.deck) := by
  obtain ⟨deck2, dealer2, hdl, hg2⟩ := player_stand_charac g g2 hf h
  obtain ⟨h17, hcons, hmax⟩ :=
    drawLoopF_some g.deck.length g.deck g.dealer_cards deck2 dealer2
      (Nat.le_refl _) hdl
  have hdk : g2.deck = deck2 := by rw [hg2]
  have hdc : g2.dealer_cards = dealer2 := by rw [hg2]
  have hpc : g2.player_cards = g.player_cards := by rw [hg2]
  have hfin : g2.finished = true := by rw [hg2]
  have hmsg : g2.message =
      (if 21 < hand_value dealer2 ∨
          hand_value dealer2 < hand_value g.player_cards then "You win!"
       else if hand_value g.player_cards < hand_value dealer2 then
         "Dealer wins."
       else "Push (tie).") := by rw [hg2]
  rw [hdk, hdc, hpc, hfin, hmsg]
  refine ⟨rfl, h17, rfl, ?_, ?_, ?_, ?_⟩
  · intro hc
    exact if_pos hc
  · intro hle hlt
    rw [if_neg (by omega :
          ¬(21 < hand_value dealer2 ∨
            hand_value dealer2 < hand_value g.player_cards))]
    exact if_pos hlt
  · intro hle heq
    rw [if_neg (by omega :
          ¬(21 < hand_value dealer2 ∨
            hand_value dealer2 < hand_value g.player_cards)),
        if_neg (by omega : ¬hand_value g.player_cards < hand_value dealer2)]
  · intro h17eq hace
    have hstop := drawLoopF_at17 g.deck.length g.deck g.dealer_cards (by omega)
    have hpair := hdl.symm.trans hstop
    obtain ⟨he1, he2⟩ := Prod.mk.injEq .. ▸ Option.some.injEq .. ▸ hpair
    exact ⟨he2, he1⟩

/-- C2 witness: a concrete in-progress push hand. -/
theorem blackjack_stand_resolves_witness :
    exStandGame.finished = false ∧
    player_stand exStandGame = some exStandGame2 ∧
    exStandGame2.finished = true ∧
    17 ≤ hand_value exStandGame2.dealer_cards := by
  have h := blackjack_stand_resolves exStandGame exStandGame2 (by decide) (by decide)
  exact ⟨by decide, by decide, h.1, h.2.1⟩

/-- C3: hitting on an in-progress session deals exactly one card from the
deck to the player hand, leaves the dealer hand unchanged, and finishes
with the bust message exactly when the new player total exceeds 21
(otherwise the session stays in progress with its message untouched). -/
theorem blackjack_hit_deals_one (g g2 : Game)
    (hf : g.finished = false) (h : player_hit g = some g2) :
    ∃ c, dealCard g.deck = some (c, g2.deck) ∧
      g2.player_cards = g.player_cards ++ [c] ∧
      g2.deck.length + 1 = g.deck.length ∧
      g2.dealer_cards = g.dealer_cards ∧
      (21 < hand_value g2.player_cards →
        g2.finished = true ∧ g2.message = "You busted! Dealer wins.") ∧
      (hand_value g2.player_cards ≤ 21 →
        g2.finished = false ∧ g2.message = g.message) := by
  obtain ⟨c, d, hd, hg2⟩ := player_hit_charac g g2 hf h
  obtain ⟨hlen, -, -⟩ := dealCard_some hd
  by_cases hb : 21 < hand_value (g.player_cards ++ [c])
  · rw [if_pos hb] at hg2
    have hdk : g2.deck = d := by rw [hg2]
    have hpc : g2.player_cards = g.player_cards ++ [c] := by rw [hg2]
    have hdc : g2.dealer_cards = g.dealer_cards := by rw [hg2]
    have hfin : g2.finished = true := by rw [hg2]
    have hmsg : g2.message = "You busted! Dealer wins." := by rw [hg2]
    rw [hdk, hpc, hdc]
    exact ⟨c, hd, rfl, hlen, rfl, fun _ => ⟨hfin, hmsg⟩,
           fun hle => absurd hb (by omega)⟩
  · rw [if_neg hb] at hg2
    push_neg at hb
    have hdk : g2.deck = d := by rw [hg2]
    have hpc : g2.player_cards = g.player_cards ++ [c] := by rw [hg2]
    have hdc : g2.dealer_cards = g.dealer_cards := by rw [hg2]
    have hfin : g2.finished = g.finished := by rw [hg2]
    have hmsg : g2.message = g.message := by rw [hg2]
    rw [hdk, hpc, hdc]
    exact ⟨c, hd, rfl, hlen, rfl, fun hgt => absurd hgt (by omega),
           fun _ => ⟨hfin.trans hf, hmsg⟩⟩

/-- C3 witness: a concrete hit that busts the player. -/
theorem blackjack_hit_deals_one_witness :
    exHitGame.finished = false ∧
    player_hit exHitGame = some exHitGame2 ∧
    ∃ c, dealCard exHitGame.deck = some (c, exHitGame2.deck) ∧
      exHitGame2.player_cards = exHitGame.player_cards ++ [c] := by
  obtain ⟨c, h1, h2, -⟩ :=
    blackjack_hit_deals_one exHitGame exHitGame2 (by decide) (by decide)
  exact ⟨by decide, by decide, c, h1, h2⟩

/-- C4: on a finished session both `player_hit` and `player_stand` succeed
and return the state completely unchanged (deck, hands, status, message). -/
theorem blackjack_finished_noop (g : Game) (hf : g.finished = true) :
    player_hit g = some g ∧ player_stand g = some g :=
  ⟨player_hit_finished g hf, player_stand_finished g hf⟩

/-- C4 witness: a concrete finished game. -/
theorem blackjack_finished_noop_witness :
    exFinishedGame.finished = true ∧
    player_hit exFinishedGame = some exFinishedGame ∧
    player_stand exFinishedGame = some exFinishedGame := by
  have h := blackjack_finished_noop exFinishedGame (by decide)
  exact ⟨by decide, h.1, h.2⟩

/-- C5: `start` succeeds from any state (and its result does not depend on
the prior state), deals two cards to the player and then two to the dealer
in deck order, leaves 48 cards in the deck, clears `finished`, and sets the
greeting message. -/
theorem blackjack_start_initializes (fresh : List Card) (g : Game)
    (hp : fresh.Perm freshDeckCards) :
    ∃ g2, Game.start fresh g = some g2 ∧
      (∀ gAny : Game, Game.start fresh gAny = some g2) ∧
      g2.player_cards.length = 2 ∧ g2.dealer_cards.length = 2 ∧
      g2.deck.length = 48 ∧ g2.finished = false ∧
      g2.message = "Game started. Hit or stand?" ∧
      ∃ c1 d1 c2 d2 c3 d3 c4,
        dealCard fresh = some (c1, d1) ∧ dealCard d1 = some (c2, d2) ∧
        dealCard d2 = some (c3, d3) ∧ dealCard d3 = some (c4, g2.deck) ∧
        g2.player_cards = [c1, c2] ∧ g2.dealer_cards = [c3, c4] := by
  have hlen : fresh.length = 52 := hp.length_eq.trans freshDeckCards_length
  obtain ⟨g2, hs⟩ := start_isSome fresh g (by omega)
  obtain ⟨c1, d1, c2, d2, c3, d3, c4, d4, h1, h2, h3, h4, rfl⟩ :=
    start_chain fresh g g2 hs
  obtain ⟨hl1, -, -⟩ := dealCard_some h1
  obtain ⟨hl2, -, -⟩ := dealCard_some h2
  obtain ⟨hl3, -, -⟩ := dealCard_some h3
  obtain ⟨hl4, -, -⟩ := dealCard_some h4
  exact ⟨_, hs, fun gAny => hs, by simp, by simp, by simp; omega, rfl, rfl,
         c1, d1, c2, d2, c3, d3, c4, h1, h2, h3, h4, rfl, rfl⟩

/-- C5 witness: starting from the canonical deck. -/
theorem blackjack_start_initializes_witness :
    ∃ g2, Game.start freshDeckCards (initGame []) = some g2 ∧
      g2.player_cards.length = 2 ∧ g2.dealer_cards.length = 2 ∧
      g2.deck.length = 48 ∧ g2.finished = false := by
  obtain ⟨g2, hs, -, hp2, hd2, hdk, hfin, -, -⟩ :=
    blackjack_start_initializes freshDeckCards (initGame []) (List.Perm.refl _)
  exact ⟨g2, hs, hp2, hd2, hdk, hfin⟩

/-- C6 counterexample: the `/stand` and `/hit` handlers log an outcome
record whenever the session is finished after the call, so invoking them on
a session that already finished (here: by a prior bust) emits a duplicate
loss record even though no transition into FINISHED takes place; the
session state itself is unchanged by the no-op call. -/
theorem blackjack_stand_relog_cex :
    exBustedGame.finished = true ∧
    standRoute exBustedGame = some (exBustedGame, [HandResult.loss]) ∧
    hitRoute exBustedGame = some (exBustedGame, [HandResult.loss]) := by
  exact ⟨rfl, by decide, by decide⟩

/-- C6 amended: the `/stand` handler emits exactly one outcome record on
every successful call — the record derived from the final message — whether
or not this call made the transition into FINISHED (a repeat stand on a
finished session re-emits the record); the `/hit` handler emits one loss
record exactly when the session is finished with a bust message after the
call, and therefore also re-emits it on every repeat hit after a bust. On a
genuine transition the emission is exactly one record, as the claim says;
only the quiescence of repeat calls fails. -/
theorem blackjack_route_logging :
    (∀ g g2 recs, standRoute g = some (g2, recs) →
        recs = [resultOfMessage g2.message]) ∧
    (∀ g, g.finished = true →
        standRoute g = some (g, [resultOfMessage g.message])) ∧
    (∀ g, g.finished = true →
        hitRoute g = some (g, if containsStr "busted" g.message then
                                [HandResult.loss]
                              else [])) ∧
    (∀ g g2 recs, g.finished = false → hitRoute g = some (g2, recs) →
        (g2.finished = true → recs = [HandResult.loss]) ∧
        (g2.finished = false → recs = [])) := by
  refine ⟨?_, ?_, ?_, ?_⟩
  · intro g g2 recs h
    rw [standRoute] at h
    split at h
    · cases h
    · next g0 heq =>
      obtain ⟨hg, hr⟩ := Prod.mk.injEq .. ▸ Option.some.injEq .. ▸ h
      have hfin := player_stand_finishes g g0 heq
      rw [← hr, ← hg, hfin]
      simp
  · intro g hfg
    rw [standRoute, player_stand_finished g hfg]
    simp [hfg]
  · intro g hfg
    rw [hitRoute, player_hit_finished g hfg]
    simp [hfg]
  · intro g g2 recs hfg h
    rw [hitRoute] at h
    split at h
    · cases h
    · next g0 heq =>
      obtain ⟨hg, hr⟩ := Prod.mk.injEq .. ▸ Option.some.injEq .. ▸ h
      subst hg
      obtain ⟨c, d, hd, hg2⟩ := player_hit_charac g g0 hfg heq
      by_cases hb : 21 < hand_value (g.player_cards ++ [c])
      · rw [if_pos hb] at hg2
        have hfin : g0.finished = true := by rw [hg2]
        have hmsg : g0.message = "You busted! Dealer wins." := by rw [hg2]
        constructor
        · intro _
          rw [← hr, hfin, hmsg]
          simp
          decide
        · intro hcontra
          rw [hfin] at hcontra
          cases hcontra
      · rw [if_neg hb] at hg2
        have hfin : g0.finished = g.finished := by rw [hg2]
        constructor
        · intro hcontra
          rw [hfin, hfg] at hcontra
          cases hcontra
        · intro _
          rw [← hr, hfin, hfg]
          simp

/-- C7: a fresh deck (any shuffle of the canonical build) holds exactly the
52 distinct (rank, suit) pairs — every pair occurs, none twice — and `deal`
removes and returns the top card, shrinking the deck by one; the dealt card
is no longer in the remaining deck, and together they are a permutation of
the pre-deal deck, so no pair can ever be dealt twice. -/
theorem blackjack_deck_canonical (d : List Card) (hp : d.Perm freshDeckCards) :
    d.length = 52 ∧ d.Nodup ∧ (∀ c : Card, c ∈ d) ∧
    ∀ c rest, dealCard d = some (c, rest) →
      rest.length + 1 = d.length ∧ c ∉ rest ∧ (c :: rest).Perm d := by
  have hnodup : freshDeckCards.Nodup := by decide
  have hmem : ∀ c : Card, c ∈ freshDeckCards := by
    intro c
    obtain ⟨r, s⟩ := c
    cases r <;> cases s <;> decide
  have hdn : d.Nodup := hp.nodup_iff.mpr hnodup
  refine ⟨hp.length_eq.trans freshDeckCards_length, hdn,
          fun c => hp.mem_iff.mpr (hmem c), ?_⟩
  intro c rest hdeal
  obtain ⟨hlen, -, happ⟩ := dealCard_some hdeal
  have hperm : (c :: rest).Perm d := by
    rw [happ]
    exact (List.perm_append_singleton c rest).symm
  have hnd2 : (c :: rest).Nodup := hperm.nodup_iff.mpr hdn
  exact ⟨hlen, (List.nodup_cons.mp hnd2).1, hperm⟩

/-- C7 witness: the canonical deck itself. -/
theorem blackjack_deck_canonical_witness :
    freshDeckCards.length = 52 ∧ freshDeckCards.Nodup := by
  have h := blackjack_deck_canonical freshDeckCards (List.Perm.refl _)
  exact ⟨h.1, h.2.1⟩

/-- C8: in every session state reachable by `start` followed by hits and
stands, both operations succeed (`deal` is never invoked on an empty deck),
and the number of cards dealt out of the deck stays strictly below 52. -/
theorem blackjack_no_empty_deal (g : Game) (hr : Reach g) :
    (∃ r, player_hit g = some r) ∧ (∃ r, player_stand g = some r) ∧
    g.player_cards.length + g.dealer_cards.length < 52 := by
  obtain ⟨hsum, hp22, hd17, hprog⟩ := reach_inv g hr
  refine ⟨?_, ?_, by omega⟩
  · cases hf : g.finished with
    | true => exact ⟨g, player_hit_finished g hf⟩
    | false =>
      obtain ⟨hpv, hdl2⟩ := hprog hf
      have hpl := hand_value_ge_length g.player_cards
      have hdeck : g.deck ≠ [] := by
        intro he
        rw [he] at hsum
        simp at hsum
        omega
      obtain ⟨c, rest, hd⟩ := dealCard_isSome hdeck
      rw [player_hit, hf]
      simp only [Bool.false_eq_true, if_false, hd]
      split
      · exact ⟨_, rfl⟩
      · exact ⟨_, rfl⟩
  · cases hf : g.finished with
    | true => exact ⟨g, player_stand_finished g hf⟩
    | false =>
      obtain ⟨hpv, hdl2⟩ := hprog hf
      have hpl := hand_value_ge_length g.player_cards
      obtain ⟨r, hr2⟩ :=
        drawLoopF_isSome g.deck.length g.deck g.dealer_cards
          (Nat.le_refl _) (by omega)
      obtain ⟨deck2, dealer2⟩ := r
      rw [player_stand, hf]
      simp only [Bool.false_eq_true, if_false, hr2]
      exact ⟨_, rfl⟩

/-- C8 witness: the state reached by starting from the canonical deck. -/
theorem blackjack_no_empty_deal_witness :
    (∃ r, player_hit exStartedGame = some r) ∧
    (∃ r, player_stand exStartedGame = some r) ∧
    exStartedGame.player_cards.length + exStartedGame.dealer_cards.length < 52 := by
  have hs : Game.start freshDeckCards (initGame []) = some exStartedGame := by
    decide
  exact blackjack_no_empty_deal exStartedGame
    (Reach.start freshDeckCards (initGame []) exStartedGame
      (List.Perm.refl _) hs)

/-- C9: `get_game_for_user` returns a stored session unchanged on a hit;
on a miss it builds a fresh session with `start`, stores it under the
identity and returns it; a second call for the same identity then returns
the very same session and store without restarting anything; and a call
for one identity never touches the entry of any other identity. -/
theorem blackjack_store_get_or_create :
    (∀ f1 f2 s u g, storeLookup s u = some g →
        get_game_for_user f1 f2 s u = some (s, g)) ∧
    (∀ f1 f2 s u s2 g, storeLookup s u = none →
        get_game_for_user f1 f2 s u = some (s2, g) →
        Game.start f2 (initGame f1) = some g ∧ s2 = (u, g) :: s ∧
        storeLookup s2 u = some g) ∧
    (∀ f1 f2 f1b f2b s s2 u g,
        get_game_for_user f1 f2 s u = some (s2, g) →
        get_game_for_user f1b f2b s2 u = some (s2, g)) ∧
    (∀ f1 f2 s u u2 s2 g, u ≠ u2 →
        get_game_for_user f1 f2 s u = some (s2, g) →
        storeLookup s2 u2 = storeLookup s u2) := by
  have part1 : ∀ f1 f2 s u g, storeLookup s u = some g →
      get_game_for_user f1 f2 s u = some (s, g) := by
    intro f1 f2 s u g hlk
    rw [get_game_for_user, hlk]
  have part2 : ∀ f1 f2 s u s2 g, storeLookup s u = none →
      get_game_for_user f1 f2 s u = some (s2, g) →
      Game.start f2 (initGame f1) = some g ∧ s2 = (u, g) :: s ∧
      storeLookup s2 u = some g := by
    intro f1 f2 s u s2 g hlk h
    rw [get_game_for_user] at h
    split at h
    · next g0 heq =>
      rw [hlk] at heq
      cases heq
    · split at h
      · cases h
      · next g0 hst =>
        obtain ⟨hs2, hg⟩ := Prod.mk.injEq .. ▸ Option.some.injEq .. ▸ h
        subst hg
        refine ⟨hst, hs2.symm, ?_⟩
        rw [← hs2]
        show (if u = u then some g0 else storeLookup s u) = some g0
        rw [if_pos rfl]
  refine ⟨part1, part2, ?_, ?_⟩
  · intro f1 f2 f1b f2b s s2 u g h
    cases hlk : storeLookup s u with
    | some g0 =>
      have h0 := part1 f1 f2 s u g0 hlk
      rw [h0] at h
      obtain ⟨hs2, hg⟩ := Prod.mk.injEq .. ▸ Option.some.injEq .. ▸ h
      subst hs2 hg
      exact part1 f1b f2b s u g0 hlk
    | none =>
      obtain ⟨-, -, hfind⟩ := part2 f1 f2 s u s2 g hlk h
      exact part1 f1b f2b s2 u g hfind
  · intro f1 f2 s u u2 s2 g hne h
    cases hlk : storeLookup s u with
    | some g0 =>
      have h0 := part1 f1 f2 s u g0 hlk
      rw [h0] at h
      obtain ⟨hs2, -⟩ := Prod.mk.injEq .. ▸ Option.some.injEq .. ▸ h
      rw [hs2]
    | none =>
      obtain ⟨-, hs2, -⟩ := part2 f1 f2 s u s2 g hlk h
      rw [hs2]
      show (if u = u2 then some g else storeLookup s u2) = storeLookup s u2
      rw [if_neg hne]

/-- C10: in every reachable in-progress session state the player hand's
value is at most 21: busting always coincides with FINISHED. -/
theorem blackjack_inprogress_not_bust (g : Game) (hr : Reach g)
    (hf : g.finished = false) : hand_value g.player_cards ≤ 21 :=
  ((reach_inv g hr).2.2.2 hf).1

/-- C10 witness: the state reached by starting from the canonical deck. -/
theorem blackjack_inprogress_not_bust_witness :
    hand_value exStartedGame.player_cards ≤ 21 := by
  have hs : Game.start freshDeckCards (initGame []) = some exStartedGame := by
    decide
  exact blackjack_inprogress_not_bust exStartedGame
    (Reach.start freshDeckCards (initGame []) exStartedGame
      (List.Perm.refl _) hs) rfl
